import Mathlib

/-!
Shallow embedding of the trade-engine signal scoring and aggregation core
(`signal_processors/bittensor_processor.py`) together with theorems that
check the specification's claims about net-position reconstruction, miner
scoring, gradient allocation, percentile normalization, drawdown metrics,
the miner-count anomaly guard, and per-asset depth aggregation.

Modelling conventions:
* Python floats are modelled as exact rationals (`ℚ`); every float literal
  appearing in the source (`0.5`, `1e-15`, `1.0`, …) is exactly
  representable, and the claims checked here are about exact arithmetic
  relationships.
* Python's stable `sorted(...)` is modelled by `List.insertionSort` with
  the matching comparator (ties keep input order in both).
* Fallible code paths (Python `ZeroDivisionError` on a zero average price,
  `ValueError` from `max()` on an empty sequence) are modelled with
  `Option`: `none` is an uncaught exception.
* `math.sqrt` is modelled by `Real.sqrt`, so the consistency score lives
  in `ℝ`; everything before the square root stays in `ℚ`.
-/

namespace TradeEngine

/-- One raw order as consumed by `_compute_net_position_and_average_price`
and `calculate_max_drawdown_from_orders`: the dictionary keys
`order_type`, `leverage`, `price`, `processed_ms`. -/
structure MinerOrder where
  order_type : String
  leverage : ℚ
  price : ℚ
  processed_ms : ℤ
deriving DecidableEq, Repr

/-- One position dictionary, with the keys read by `_process_signals`,
`get_trade_consistency_score` and `calculate_max_drawdown_from_positions`. -/
structure MinerPosition where
  trade_pair : List String
  net_leverage : ℚ
  is_closed_position : Bool
  orders : List MinerOrder
  open_ms : ℤ
  close_ms : ℤ
deriving DecidableEq, Repr

/-- Per-miner record: the fields of the raw snapshot used by
`_process_signals`. -/
structure MinerData where
  all_time_returns : ℚ
  positions : List MinerPosition
deriving DecidableEq, Repr

/-- `LEVERAGE_LIMIT_CRYPTO = 0.5`. -/
def LEVERAGE_LIMIT_CRYPTO : ℚ := 1 / 2

/-- `DRAWDOWN_EXPONENT = 6`. -/
def DRAWDOWN_EXPONENT : ℕ := 6

/-- `SHARPE_EXPONENT = 2`. -/
def SHARPE_EXPONENT : ℕ := 2

/-- `PROFITABLE_RATE_EXPONENT = 5`. -/
def PROFITABLE_RATE_EXPONENT : ℕ := 5

/-- `CORE_ASSET_MAPPING` as a partial lookup. -/
def CORE_ASSET_MAPPING (s : String) : Option String :=
  if s = "BTCUSD" then some "BTCUSDT"
  else if s = "ETHUSD" then some "ETHUSDT"
  else if s = "ADAUSD" then some "ADAUSDT"
  else none

/-- Python `s.upper().strip()` for the ASCII order-type strings: upper-case
every character, then drop whitespace from both ends. (Defined over the
character list so that it is structurally recursive and hence evaluable in
proofs, unlike `String.toUpper`/`String.trim`.) -/
def upper_strip (s : String) : String :=
  ⟨(((s.data.map Char.toUpper).dropWhile Char.isWhitespace).reverse.dropWhile
      Char.isWhitespace).reverse⟩

/-- `sorted(orders, key=lambda x: x["processed_ms"])` — stable ascending
sort by timestamp. -/
def sortOrders (orders : List MinerOrder) : List MinerOrder :=
  List.insertionSort (fun a b => a.processed_ms ≤ b.processed_ms) orders

/-- Loop body of `_compute_net_position_and_average_price` (lines 228-254):
skip zero-leverage orders; same direction means weighted-average basis;
opposite direction either flips (basis becomes the flipping order's price)
or partially/fully closes (reset both to zero within `1e-15`). State is
`(net_position, cost_basis)`. -/
def processOrder (st : ℚ × ℚ) (o : MinerOrder) : ℚ × ℚ :=
  if |o.leverage| = 0 then st
  else
    let qty := o.leverage
    let price := o.price
    let net := st.1
    let basis := st.2
    if net * qty > 0 then
      let new_position := net + qty
      (new_position, (net * basis + qty * price) / new_position)
    else if |qty| > |net| then
      (qty + net, price)
    else
      let net' := net + qty
      if |net'| < 1 / 10 ^ 15 then (0, 0) else (net', basis)

/-- `_compute_net_position_and_average_price`: sort chronologically, return
`(0.0, 0.0)` if any order's type (upper-cased, stripped) is `FLAT`,
otherwise fold `processOrder` from `(0.0, 0.0)`. -/
def compute_net_position_and_average_price (orders : List MinerOrder) : ℚ × ℚ :=
  let sorted_orders := sortOrders orders
  if sorted_orders.any (fun o => upper_strip o.order_type == "FLAT") then (0, 0)
  else sorted_orders.foldl processOrder (0, 0)

/-- `total_weight = sum(max_rank + 1 - rank for rank in range(1, max_rank + 1))`
in `_calculate_gradient_allocation`. -/
def calculate_gradient_allocation_total (max_rank : ℕ) : ℤ :=
  ((List.range' 1 max_rank).map (fun rank : ℕ => (max_rank : ℤ) + 1 - (rank : ℤ))).sum

/-- `_calculate_gradient_allocation`: the allocation dictionary, as a
function of the rank key; `allocations[rank] = (max_rank + 1 - rank) / total_weight`.
The source dictionary holds keys `1..max_rank` only. -/
def calculate_gradient_allocation (max_rank rank : ℕ) : ℚ :=
  ((max_rank : ℚ) + 1 - rank) / (calculate_gradient_allocation_total max_rank : ℚ)

/-- The miner-count guard of `get_ranked_miners` (lines 343-348):
`previous_key_count >= 0 and (current_key_count <= 50 or
abs(current_key_count - previous_key_count) > 10)` raises `ValueError`.
`fetch_key_count` returns `-1` when no cache file exists, so a first run
with no stored count is the `previous = -1` case. -/
def anomaly_check (previous current : ℤ) : Bool :=
  decide (0 ≤ previous) && (decide (current ≤ 50) || decide (10 < |current - previous|))

/-- The per-element score of `normalize_to_percentile`:
`1.0 - (rank / (n - 1) if n > 1 else 0)`. -/
def percentile_score (n rank : ℕ) : ℚ :=
  1 - (if 1 < n then (rank : ℚ) / ((n : ℚ) - 1) else 0)

/-- The rank-assignment loop of `normalize_to_percentile`: starting from
the all-zero array `[0] * n`, set `ranks[idx] = percentile_score n rank`
for each `(rank, (idx, value))` of the enumerated sorted list. The array
is modelled as a function from original index to score. -/
def ranks_fun (n : ℕ) (swi_enum : List (ℕ × (ℕ × ℚ))) (f : ℕ → ℚ) : ℕ → ℚ :=
  swi_enum.foldl (fun f rp => fun j => if j = rp.2.1 then percentile_score n rp.1 else f j) f

/-- `sorted(enumerate(values), key=lambda x: x[1], reverse=True)` — the
stable descending sort of the enumerated values used by
`normalize_to_percentile` when its `reverse` argument is false. -/
def desc_sort (values : List ℚ) : List (ℕ × ℚ) :=
  List.insertionSort (fun p q : ℕ × ℚ => q.2 ≤ p.2) values.enum

/-- `normalize_to_percentile(values, reverse)`: stable-sort the enumerated
values (descending when `reverse` is false), then assign rank-based scores
back to the original indices. -/
def normalize_to_percentile (values : List ℚ) (rev : Bool) : List ℚ :=
  let swi :=
    if rev then List.insertionSort (fun p q : ℕ × ℚ => p.2 ≤ q.2) values.enum
    else desc_sort values
  let n := swi.length
  (List.range n).map (ranks_fun n swi.enum (fun _ => 0))

/-- Lines 437-438 of `calculate_miner_scores`:
`drawdown_score = 1.0 + metrics['max_drawdown']` followed by
`drawdown_score = drawdown_score ** 2`. -/
def drawdown_score (max_drawdown : ℚ) : ℚ := (1 + max_drawdown) ^ (2 : ℕ)

/-- The `total_score` sum of `calculate_miner_scores` (lines 457-464), as a
function of the already-normalized per-miner inputs. The position-count
bonus `np.log1p(position_count) / POSITION_COUNT_DIVISOR` is transcendental
and enters only as the opaque factor `position_count_bonus`. -/
def total_score (max_drawdown sharpe_ratio total_return percentage_profitable
    position_count_percentile position_count_bonus consistency_score : ℚ) : ℚ :=
  drawdown_score max_drawdown ^ DRAWDOWN_EXPONENT
    + sharpe_ratio ^ SHARPE_EXPONENT
    + (1 + total_return)
    + percentage_profitable ^ PROFITABLE_RATE_EXPONENT
    + position_count_percentile * position_count_bonus
    + consistency_score

/-- Loop state of `calculate_max_drawdown_from_orders`. -/
structure DDState where
  cumulative_leverage : ℚ
  weighted_sum_price : ℚ
  max_drawdown : ℚ
deriving DecidableEq, Repr

/-- Loop body of `calculate_max_drawdown_from_orders`: skip zero leverage
or zero price; accumulate leverage (also when the running total hits zero,
in which case the rest of the step is skipped); otherwise update the
weighted price sum, compute the direction-aware drawdown against the
running average price, and keep the most negative value. A zero average
price is a Python `ZeroDivisionError`, modelled as `none`. -/
def dd_step (st : DDState) (o : MinerOrder) : Option DDState :=
  if o.leverage = 0 ∨ o.price = 0 then some st
  else
    let cl := st.cumulative_leverage + o.leverage
    if cl = 0 then some ⟨cl, st.weighted_sum_price, st.max_drawdown⟩
    else
      let ws := st.weighted_sum_price + o.leverage * o.price
      let average_price := ws / cl
      if average_price = 0 then none
      else
        let price_drawdown :=
          if cl > 0 then (o.price - average_price) / average_price
          else (average_price - o.price) / average_price
        let account_drawdown := price_drawdown * |cl|
        some ⟨cl, ws, min st.max_drawdown (-|account_drawdown|)⟩

/-- `calculate_max_drawdown_from_orders`: fold `dd_step` from the all-zero
state and return the final `max_drawdown`. -/
def calculate_max_drawdown_from_orders (orders : List MinerOrder) : Option ℚ :=
  (orders.foldlM dd_step ⟨0, 0, 0⟩).map DDState.max_drawdown

/-- `calculate_max_drawdown_from_positions`: the minimum of the per-position
drawdowns, starting from `0`; an exception from any position propagates. -/
def calculate_max_drawdown_from_positions (positions : List MinerPosition) : Option ℚ :=
  positions.foldlM
    (fun md p => (calculate_max_drawdown_from_orders p.orders).map (fun dd => min md dd)) 0

/-- `sorted(miner['positions'], key=lambda pos: pos['open_ms'])`. -/
def sortPositions (ps : List MinerPosition) : List MinerPosition :=
  List.insertionSort (fun a b => a.open_ms ≤ b.open_ms) ps

/-- The interval list of `get_trade_consistency_score`:
`positions[i]['open_ms'] - positions[i-1]['close_ms']` for `i = 1..len-1`. -/
def trade_intervals (ps : List MinerPosition) : List ℤ :=
  (ps.zip ps.tail).map (fun pq => pq.2.open_ms - pq.1.close_ms)

/-- `mean_interval = sum(intervals) / len(intervals)`. -/
def interval_mean (l : List ℤ) : ℚ :=
  (l.map (fun x : ℤ => (x : ℚ))).sum / l.length

/-- The radicand of `std_interval`:
`sum((x - mean_interval) ** 2 for x in intervals) / len(intervals)`. -/
def interval_variance (l : List ℤ) : ℚ :=
  (l.map (fun x : ℤ => ((x : ℚ) - interval_mean l) ^ (2 : ℕ))).sum / l.length

/-- `get_trade_consistency_score`: sort positions by open time, return `0`
for fewer than two positions, otherwise
`1 - (std_interval / mean_interval if mean_interval != 0 else 0)`. -/
noncomputable def get_trade_consistency_score (ps : List MinerPosition) : ℝ :=
  let positions := sortPositions ps
  if positions.length < 2 then 0
  else
    let intervals := trade_intervals positions
    let mean_interval := interval_mean intervals
    let std_interval : ℝ := Real.sqrt ((interval_variance intervals : ℚ) : ℝ)
    1 - (if mean_interval ≠ 0 then std_interval / (mean_interval : ℝ) else 0)

/-- Modelled from the spec (amended §4.4): sorts a miner's positions by open
time; with fewer than two positions the score is `0`; otherwise the gaps
between each position's open time and the previous position's close time are
taken, and the score is `1 − stdev(gaps)/mean(gaps)` when the mean gap is
nonzero, and `1` when the mean gap is zero (the zero-mean guard nulls only
the ratio, not the whole score). Stated directly over the reals. -/
noncomputable def spec_consistency_score (ps : List MinerPosition) : ℝ :=
  let positions := sortPositions ps
  if positions.length < 2 then 0
  else
    let gaps := trade_intervals positions
    let mean : ℝ := (gaps.map (fun x : ℤ => (x : ℝ))).sum / gaps.length
    let stdev : ℝ :=
      Real.sqrt ((gaps.map (fun x : ℤ => ((x : ℝ) - mean) ^ (2 : ℕ))).sum / gaps.length)
    if mean = 0 then 1 else 1 - stdev / mean

/-- One accumulated entry of `asset_depths[symbol]` in `_process_signals`
(lines 152-161): the order's fields with leverage scaled by the miner's
allocation weight, plus the originating symbol. -/
structure DepthEntry where
  order_type : String
  leverage : ℚ
  price : ℚ
  processed_ms : ℤ
  original_symbol : String
deriving DecidableEq, Repr

/-- An accumulated entry carries the same four order keys read by
`_compute_net_position_and_average_price` (Python duck typing). -/
def DepthEntry.toOrder (e : DepthEntry) : MinerOrder :=
  ⟨e.order_type, e.leverage, e.price, e.processed_ms⟩

/-- One element of the `results` list of `_process_signals` (lines 188-197).
The source formats `timestamp` as a date string from `processed_ms`; the
raw milliseconds stand in for that purely presentational conversion. -/
structure AssetSignal where
  symbol : String
  original_symbols : List String
  depth : ℚ
  price : Option ℚ
  average_price : ℚ
  timestamp_ms : ℤ
deriving DecidableEq, Repr

/-- `symbol in asset_depths` lookup on the insertion-ordered dictionary. -/
def lookup_depths (ad : List (String × List DepthEntry)) (symbol : String) :
    Option (List DepthEntry) :=
  (ad.find? (fun p => p.1 == symbol)).map Prod.snd

/-- `asset_depths[symbol].append(...)` for a batch of new entries. -/
def add_depth_entries (ad : List (String × List DepthEntry)) (symbol : String)
    (new : List DepthEntry) : List (String × List DepthEntry) :=
  ad.map (fun p => if p.1 == symbol then (p.1, p.2 ++ new) else p)

/-- The per-position body of the miner loop in `_process_signals`
(lines 114-161), with `mapped_only=True` as in the `fetch_signals` call
path: find the first mapped trade pair (skip the position if none), create
the symbol's (possibly empty) entry list, skip closed or zero-net-leverage
positions, and append the miner's weighted orders. The source also computes
`net_pos`, `avg_price`, a capped leverage `min(net_pos, LEVERAGE_LIMIT_CRYPTO)`
and a normalized depth here, but uses them only in a `print` (lines 141-149);
`max()` on an empty order list would raise, modelled as `none`. -/
def process_position (allocation_weight : ℚ) (ad : List (String × List DepthEntry))
    (position : MinerPosition) : Option (List (String × List DepthEntry)) :=
  match position.trade_pair.find? (fun tp => (CORE_ASSET_MAPPING tp).isSome) with
  | none => some ad
  | some original_symbol =>
    let symbol := (CORE_ASSET_MAPPING original_symbol).getD ""
    let ad := if (lookup_depths ad symbol).isSome then ad else ad ++ [(symbol, [])]
    if position.net_leverage = 0 ∨ position.is_closed_position then some ad
    else
      let _net_avg := compute_net_position_and_average_price position.orders
      let _capped_leverage := min _net_avg.1 LEVERAGE_LIMIT_CRYPTO
      let _normalized_depth := (_capped_leverage / LEVERAGE_LIMIT_CRYPTO) * allocation_weight
      match (position.orders.map (fun o => o.processed_ms)).max? with
      | none => none
      | some _latest_order_ms =>
        some (add_depth_entries ad symbol
          (position.orders.map (fun o =>
            ⟨o.order_type, o.leverage * allocation_weight, o.price, o.processed_ms,
              original_symbol⟩)))

/-- `_process_signals(data, top_miners, mapped_only=True)`: rank miners by
`all_time_returns` (stable descending), truncate to `top_miners` when that
argument is truthy, fold every miner's positions into the per-asset entry
lists with gradient-allocation weighting (skipping duplicate hotkeys), then
recompute net position and average price per asset from the accumulated
entries. `depth` of an emitted signal is that recomputed net position.
The unique-original-symbols set (a Python set with unspecified order) is
modelled by `List.dedup`. -/
def process_signals (data : List (String × MinerData)) (top_miners : Option ℕ) :
    Option (List AssetSignal) := do
  let sorted_all := List.insertionSort
    (fun a b : String × MinerData => b.2.all_time_returns ≤ a.2.all_time_returns) data
  let sorted_miners := match top_miners with
    | none => sorted_all
    | some k => if k = 0 then sorted_all else sorted_all.take k
  let max_rank := sorted_miners.length
  let folded ← sorted_miners.enum.foldlM
    (fun (st : List String × List (String × List DepthEntry)) rp => do
      let rank := rp.1 + 1
      let miner_hotkey := rp.2.1
      let miner := rp.2.2
      if st.1.contains miner_hotkey then
        pure st
      else
        let miner_tracker := st.1 ++ [miner_hotkey]
        let allocation_weight := calculate_gradient_allocation max_rank rank
        let ad ← miner.positions.foldlM (process_position allocation_weight) st.2
        pure (miner_tracker, ad))
    ([], [])
  folded.2.mapM (fun se => do
    let entries := se.2
    let na := compute_net_position_and_average_price (entries.map DepthEntry.toOrder)
    let last_entry_ms ← (entries.map (fun e => e.processed_ms)).max?
    let last_price := (entries.find? (fun e => e.processed_ms == last_entry_ms)).map
      (fun e => e.price)
    pure ⟨se.1, (entries.map (fun e => e.original_symbol)).dedup, na.1, last_price,
      na.2, last_entry_ms⟩)

/-! ## General helper lemmas -/

lemma sum_map_div {α : Type} (l : List α) (f : α → ℚ) (c : ℚ) :
    (l.map (fun x => f x / c)).sum = (l.map f).sum / c := by
  induction l with
  | nil => simp
  | cons a t ih => simp [ih, add_div]

lemma intCast_list_sum (l : List ℤ) :
    ((l.sum : ℤ) : ℚ) = (l.map (fun x : ℤ => (x : ℚ))).sum := by
  induction l with
  | nil => simp
  | cons a t ih => push_cast [ih]; simp

lemma ratCast_list_sum_int (l : List ℤ) :
    (((l.map (fun x : ℤ => (x : ℚ))).sum : ℚ) : ℝ) = (l.map (fun x : ℤ => (x : ℝ))).sum := by
  induction l with
  | nil => simp
  | cons a t ih =>
    simp only [List.map_cons, List.sum_cons, Rat.cast_add, ih]
    norm_num

lemma ratCast_list_sum_sq (l : List ℤ) (m : ℚ) :
    (((l.map (fun x : ℤ => ((x : ℚ) - m) ^ (2 : ℕ))).sum : ℚ) : ℝ)
      = (l.map (fun x : ℤ => ((x : ℝ) - (m : ℝ)) ^ (2 : ℕ))).sum := by
  induction l with
  | nil => simp
  | cons a t ih =>
    simp only [List.map_cons, List.sum_cons, Rat.cast_add, ih]
    norm_num

/-! ## Anomaly guard: claims C7 and C10 -/

/-- C7: with a stored previous miner count ≥ 0, `get_ranked_miners` raises
the anomaly `ValueError` iff the new count is ≤ 50 or differs from the
stored count by more than 10; in particular previous=100/new=40 and
previous=100/new=112 both raise. -/
theorem claim_C7 (previous current : ℤ) (h : 0 ≤ previous) :
    (anomaly_check previous current = true ↔ (current ≤ 50 ∨ 10 < |current - previous|))
    ∧ anomaly_check 100 40 = true ∧ anomaly_check 100 112 = true := by
  refine ⟨?_, by decide, by decide⟩
  simp [anomaly_check, h]

theorem claim_C7_witness :
    (0 : ℤ) ≤ 100
    ∧ ((anomaly_check 100 40 = true ↔ ((40 : ℤ) ≤ 50 ∨ 10 < |(40 : ℤ) - 100|))
       ∧ anomaly_check 100 40 = true ∧ anomaly_check 100 112 = true) :=
  ⟨by decide, claim_C7 100 40 (by decide)⟩

/-- C10: with no stored miner count (`fetch_key_count` returns `-1`), the
guard in `get_ranked_miners` never raises, whatever the new count is. -/
theorem claim_C10 (current : ℤ) : anomaly_check (-1) current = false := by
  simp [anomaly_check]

/-! ## Composite score drawdown term: claim C2 -/

/-- C2 counterexample: at `max_drawdown = -1/2` (all other normalized
metrics zero) the code's total score is `(1/2)^12 + 1 = 4097/4096`, while
the claimed drawdown term `(1+drawdown)^6` would give `(1/2)^6 + 1 = 65/64`:
the squaring at line 438 makes the effective drawdown exponent 12, not 6. -/
theorem claim_C2_counterexample :
    total_score (-1/2) 0 0 0 0 0 0 = 4097 / 4096
    ∧ (1 + (-1/2 : ℚ)) ^ DRAWDOWN_EXPONENT + (0 : ℚ) ^ SHARPE_EXPONENT + (1 + 0)
        + (0 : ℚ) ^ PROFITABLE_RATE_EXPONENT + 0 * 0 + 0 = 65 / 64
    ∧ (4097 / 4096 : ℚ) ≠ 65 / 64 := by
  refine ⟨?_, by norm_num [DRAWDOWN_EXPONENT, SHARPE_EXPONENT, PROFITABLE_RATE_EXPONENT],
    by norm_num⟩
  norm_num [total_score, drawdown_score, DRAWDOWN_EXPONENT, SHARPE_EXPONENT,
    PROFITABLE_RATE_EXPONENT]

/-- C2 (amended): the drawdown contribution to `total_score` is
`((1+max_drawdown)^2)^DRAWDOWN_EXPONENT = (1+max_drawdown)^12` — the score
is squared once when normalized (line 438) and then raised to the
configured exponent 6 in the total (line 458). -/
theorem claim_C2 (dd s ret p pc b c : ℚ) :
    total_score dd s ret p pc b c
      = (1 + dd) ^ (12 : ℕ) + s ^ SHARPE_EXPONENT + (1 + ret)
        + p ^ PROFITABLE_RATE_EXPONENT + pc * b + c := by
  simp only [total_score, drawdown_score, DRAWDOWN_EXPONENT, ← pow_mul]

/-! ## FLAT short-circuit: claim C3 -/

/-- C3: any order whose type upper-cases and strips to `FLAT` forces
`_compute_net_position_and_average_price` to return exactly `(0.0, 0.0)`,
regardless of every other order in the sequence. -/
theorem claim_C3 (orders : List MinerOrder) (o : MinerOrder) (ho : o ∈ orders)
    (hflat : upper_strip o.order_type = "FLAT") :
    compute_net_position_and_average_price orders = (0, 0) := by
  have hmem : o ∈ sortOrders orders := by
    simpa [sortOrders] using ho
  have hany : (sortOrders orders).any (fun o => upper_strip o.order_type == "FLAT") = true :=
    List.any_eq_true.2 ⟨o, hmem, by simp [hflat]⟩
  simp [compute_net_position_and_average_price, hany]

theorem claim_C3_witness :
    (⟨"flat ", 1, 100, 5⟩ : MinerOrder) ∈
        [(⟨"flat ", 1, 100, 5⟩ : MinerOrder), ⟨"LONG", 2, 50, 1⟩]
    ∧ compute_net_position_and_average_price
        [⟨"flat ", 1, 100, 5⟩, ⟨"LONG", 2, 50, 1⟩] = (0, 0) :=
  ⟨by decide, claim_C3 _ ⟨"flat ", 1, 100, 5⟩ (by decide) (by decide)⟩

/-! ## Drawdown sign invariant: claim C9 -/

lemma dd_step_nonpos {st st' : DDState} {o : MinerOrder} (h : dd_step st o = some st')
    (hst : st.max_drawdown ≤ 0) : st'.max_drawdown ≤ 0 := by
  simp only [dd_step] at h
  split_ifs at h with h1 h2 h3 h4
  · simp only [Option.some.injEq] at h; rw [← h]; exact hst
  · simp only [Option.some.injEq] at h; rw [← h]; exact hst
  · simp only [Option.some.injEq] at h; rw [← h]
    exact le_trans (min_le_left _ _) hst
  · simp only [Option.some.injEq] at h; rw [← h]
    exact le_trans (min_le_left _ _) hst

lemma foldlM_dd_nonpos (l : List MinerOrder) : ∀ st st' : DDState,
    st.max_drawdown ≤ 0 → l.foldlM dd_step st = some st' → st'.max_drawdown ≤ 0 := by
  induction l with
  | nil =>
    intro st st' h hf
    simp only [List.foldlM_nil] at hf
    cases hf
    exact h
  | cons o t ih =>
    intro st st' h hf
    simp only [List.foldlM_cons] at hf
    cases hs : dd_step st o with
    | none => rw [hs] at hf; cases hf
    | some st1 =>
      rw [hs] at hf
      exact ih st1 st' (dd_step_nonpos hs h) hf

lemma foldlM_positions_nonpos (l : List MinerPosition) : ∀ md w : ℚ, md ≤ 0 →
    l.foldlM (fun md p =>
      (calculate_max_drawdown_from_orders p.orders).map (fun dd => min md dd)) md = some w →
    w ≤ 0 := by
  induction l with
  | nil =>
    intro md w h hf
    simp only [List.foldlM_nil] at hf
    cases hf
    exact h
  | cons p t ih =>
    intro md w h hf
    simp only [List.foldlM_cons] at hf
    cases hs : calculate_max_drawdown_from_orders p.orders with
    | none => rw [hs] at hf; cases hf
    | some dd =>
      rw [hs] at hf
      simp only [Option.map_some'] at hf
      exact ih _ w (le_trans (min_le_left _ _) h) hf

/-- C9: whenever `calculate_max_drawdown_from_orders` returns (does not
raise), the value is ≤ 0 — it only ever records `min(acc, -abs(...))` from
an initial 0 — and consequently `calculate_max_drawdown_from_positions`
also only returns values ≤ 0. -/
theorem claim_C9 (orders : List MinerOrder) (positions : List MinerPosition) (v w : ℚ)
    (hv : calculate_max_drawdown_from_orders orders = some v)
    (hw : calculate_max_drawdown_from_positions positions = some w) :
    v ≤ 0 ∧ w ≤ 0 := by
  constructor
  · unfold calculate_max_drawdown_from_orders at hv
    cases hf : orders.foldlM dd_step ⟨0, 0, 0⟩ with
    | none => rw [hf] at hv; cases hv
    | some st =>
      rw [hf] at hv
      simp only [Option.map_some', Option.some.injEq] at hv
      rw [← hv]
      exact foldlM_dd_nonpos orders _ st le_rfl hf
  · exact foldlM_positions_nonpos positions 0 w le_rfl hw

lemma dd_demo_orders :
    calculate_max_drawdown_from_orders [⟨"LONG", 1, 100, 0⟩] = some 0 := by
  rw [calculate_max_drawdown_from_orders]
  norm_num [dd_step]

lemma dd_demo_positions :
    calculate_max_drawdown_from_positions
      [⟨["BTCUSD"], 1, false, [⟨"LONG", 1, 100, 0⟩], 0, 0⟩] = some 0 := by
  rw [calculate_max_drawdown_from_positions]
  norm_num [dd_demo_orders]

theorem claim_C9_witness :
    calculate_max_drawdown_from_orders [⟨"LONG", 1, 100, 0⟩] = some 0
    ∧ calculate_max_drawdown_from_positions
        [⟨["BTCUSD"], 1, false, [⟨"LONG", 1, 100, 0⟩], 0, 0⟩] = some 0
    ∧ ((0 : ℚ) ≤ 0 ∧ (0 : ℚ) ≤ 0) :=
  ⟨dd_demo_orders, dd_demo_positions,
    claim_C9 [⟨"LONG", 1, 100, 0⟩] [⟨["BTCUSD"], 1, false, [⟨"LONG", 1, 100, 0⟩], 0, 0⟩]
      0 0 dd_demo_orders dd_demo_positions⟩

/-! ## Gradient allocation: claim C5 -/

lemma gradient_total_eq (N : ℕ) :
    (calculate_gradient_allocation_total N : ℚ)
      = ((List.range' 1 N).map (fun i : ℕ => (N : ℚ) + 1 - i)).sum := by
  unfold calculate_gradient_allocation_total
  rw [intCast_list_sum, List.map_map]
  refine congrArg List.sum (List.map_congr_left ?_)
  intro a _
  simp only [Function.comp_apply]
  push_cast
  ring

lemma gradient_total_pos (N : ℕ) (hN : 1 ≤ N) :
    0 < calculate_gradient_allocation_total N := by
  unfold calculate_gradient_allocation_total
  apply List.sum_pos
  · intro x hx
    simp only [List.mem_map] at hx
    obtain ⟨rank, hrank, rfl⟩ := hx
    rw [List.mem_range'_1] at hrank
    omega
  · simp only [ne_eq, List.map_eq_nil_iff, List.range'_eq_nil]
    omega

/-- C5: for every cohort size `N ≥ 1`, `_calculate_gradient_allocation(N)`
gives every rank `r` (1-indexed, `1 ≤ r ≤ N`) the weight
`(N+1−r) / Σ_{i=1..N}(N+1−i)`; every weight is strictly positive, weights
are strictly decreasing in rank (every higher rank `r < r' ≤ N` gets
strictly less), the `N` weights sum to exactly 1, and `N=3` yields
`3/6, 2/6, 1/6`. -/
theorem claim_C5 (N r : ℕ) (hN : 1 ≤ N) (hr1 : 1 ≤ r) (hrN : r ≤ N) :
    calculate_gradient_allocation N r
        = ((N : ℚ) + 1 - r) / ((List.range' 1 N).map (fun i : ℕ => (N : ℚ) + 1 - i)).sum
    ∧ 0 < calculate_gradient_allocation N r
    ∧ (∀ r' : ℕ, r < r' → r' ≤ N →
        calculate_gradient_allocation N r' < calculate_gradient_allocation N r)
    ∧ ((List.range' 1 N).map (calculate_gradient_allocation N)).sum = 1
    ∧ (calculate_gradient_allocation 3 1 = 3 / 6
       ∧ calculate_gradient_allocation 3 2 = 2 / 6
       ∧ calculate_gradient_allocation 3 3 = 1 / 6) := by
  have htotal : (0 : ℚ) < (calculate_gradient_allocation_total N : ℚ) := by
    exact_mod_cast gradient_total_pos N hN
  have hne : (calculate_gradient_allocation_total N : ℚ) ≠ 0 := ne_of_gt htotal
  have hrQ : (r : ℚ) ≤ (N : ℚ) := by exact_mod_cast hrN
  refine ⟨?_, ?_, ?_, ?_, ?_, ?_, ?_⟩
  · rw [calculate_gradient_allocation, gradient_total_eq]
  · exact div_pos (by linarith) htotal
  · intro r' hrr' hr'N
    have hrr'Q : (r : ℚ) < (r' : ℚ) := by exact_mod_cast hrr'
    rw [calculate_gradient_allocation, calculate_gradient_allocation]
    rw [div_lt_div_iff_of_pos_right htotal]
    linarith
  · rw [show calculate_gradient_allocation N
        = fun rk : ℕ => ((N : ℚ) + 1 - rk) / (calculate_gradient_allocation_total N : ℚ)
      from rfl]
    rw [sum_map_div, ← gradient_total_eq, div_self hne]
  · norm_num [calculate_gradient_allocation, calculate_gradient_allocation_total, List.range']
  · norm_num [calculate_gradient_allocation, calculate_gradient_allocation_total, List.range']
  · norm_num [calculate_gradient_allocation, calculate_gradient_allocation_total, List.range']

theorem claim_C5_witness :
    0 < calculate_gradient_allocation 1 1
    ∧ ((List.range' 1 1).map (calculate_gradient_allocation 1)).sum = 1
    ∧ (calculate_gradient_allocation 3 1 = 3 / 6
       ∧ calculate_gradient_allocation 3 2 = 2 / 6
       ∧ calculate_gradient_allocation 3 3 = 1 / 6) :=
  ⟨(claim_C5 1 1 (by norm_num) (by norm_num) (by norm_num)).2.1,
    (claim_C5 1 1 (by norm_num) (by norm_num) (by norm_num)).2.2.2.1,
    (claim_C5 3 3 (by norm_num) (by norm_num) (by norm_num)).2.2.2.2⟩

/-! ## Uniform-sign volume-weighted average price: claim C8 -/

lemma fold_same_sign (s : ℚ) (hs : s = 1 ∨ s = -1) :
    ∀ (l : List MinerOrder) (net basis : ℚ),
      (∀ o ∈ l, 0 ≤ s * o.leverage) → 0 ≤ s * net → (net = 0 → basis = 0) →
      l.foldl processOrder (net, basis) =
        (net + (l.map (fun o => o.leverage)).sum,
          if net + (l.map (fun o => o.leverage)).sum = 0 then 0
          else (net * basis + (l.map (fun o => o.leverage * o.price)).sum)
            / (net + (l.map (fun o => o.leverage)).sum)) := by
  have hs2 : s * s = 1 := by rcases hs with rfl | rfl <;> norm_num
  have hs0 : s ≠ 0 := by rcases hs with rfl | rfl <;> norm_num
  intro l
  induction l with
  | nil =>
    intro net basis _ _ hbasis
    simp only [List.foldl_nil, List.map_nil, List.sum_nil, add_zero]
    by_cases h0 : net = 0
    · simp [h0, hbasis h0]
    · rw [if_neg h0, mul_comm, mul_div_assoc, div_self h0, mul_one]
  | cons o t ih =>
    intro net basis hl hnet hbasis
    have hlev := hl o (List.mem_cons_self o t)
    by_cases hq : o.leverage = 0
    · rw [List.foldl_cons]
      have hstep : processOrder (net, basis) o = (net, basis) := by
        simp [processOrder, hq]
      rw [hstep]
      simp only [List.map_cons, List.sum_cons, hq, zero_mul, zero_add]
      exact ih net basis (fun o' ho' => hl o' (List.mem_cons_of_mem _ ho')) hnet hbasis
    · by_cases hn : net = 0
      · subst hn
        have hb0 : basis = 0 := hbasis rfl
        subst hb0
        rw [List.foldl_cons]
        have hstep : processOrder (0, 0) o = (o.leverage, o.price) := by
          simp [processOrder, hq, abs_pos.2 hq]
        rw [hstep,
          ih o.leverage o.price (fun o' ho' => hl o' (List.mem_cons_of_mem _ ho')) hlev
            (fun h => absurd h hq)]
        simp only [List.map_cons, List.sum_cons, zero_add, zero_mul, add_assoc]
      · have hsn : 0 < s * net := lt_of_le_of_ne hnet (Ne.symm (mul_ne_zero hs0 hn))
        have hsq : 0 < s * o.leverage := lt_of_le_of_ne hlev (Ne.symm (mul_ne_zero hs0 hq))
        have hpos : 0 < net * o.leverage := by
          have hmm := mul_pos hsn hsq
          have hrw : (s * net) * (s * o.leverage) = (s * s) * (net * o.leverage) := by ring
          rw [hrw, hs2, one_mul] at hmm
          exact hmm
        have hsnew : 0 < s * (net + o.leverage) := by
          rw [mul_add]; exact add_pos hsn hsq
        have hnew : net + o.leverage ≠ 0 := by
          intro h
          rw [h, mul_zero] at hsnew
          exact lt_irrefl 0 hsnew
        rw [List.foldl_cons]
        have hstep : processOrder (net, basis) o
            = (net + o.leverage, (net * basis + o.leverage * o.price) / (net + o.leverage)) := by
          simp [processOrder, hq, hpos]
        rw [hstep,
          ih (net + o.leverage) _ (fun o' ho' => hl o' (List.mem_cons_of_mem _ ho'))
            (le_of_lt hsnew) (fun h => absurd h hnew)]
        have e1 : net + o.leverage + (t.map (fun o => o.leverage)).sum
            = net + ((o :: t).map (fun o => o.leverage)).sum := by
          simp only [List.map_cons, List.sum_cons]
          ring
        have e2 : (net + o.leverage) * ((net * basis + o.leverage * o.price) / (net + o.leverage))
              + (t.map (fun o => o.leverage * o.price)).sum
            = net * basis + ((o :: t).map (fun o => o.leverage * o.price)).sum := by
          rw [mul_comm, div_mul_cancel₀ _ hnew]
          simp only [List.map_cons, List.sum_cons]
          ring
        rw [e1, e2]

/-- C8: with no FLAT order and all nonzero leverages of one sign, the
reconstructed net position is the sum of the leverages and the cost basis
is the volume-weighted mean of prices `Σ(leverage·price)/Σ(leverage)`. -/
theorem claim_C8 (orders : List MinerOrder)
    (hflat : ∀ o ∈ orders, upper_strip o.order_type ≠ "FLAT")
    (hsign : (∀ o ∈ orders, 0 ≤ o.leverage) ∨ (∀ o ∈ orders, o.leverage ≤ 0)) :
    compute_net_position_and_average_price orders
      = ((orders.map (fun o => o.leverage)).sum,
        (orders.map (fun o => o.leverage * o.price)).sum
          / (orders.map (fun o => o.leverage)).sum) := by
  have hperm : List.Perm (sortOrders orders) orders :=
    List.perm_insertionSort _ orders
  have hany : (sortOrders orders).any (fun o => upper_strip o.order_type == "FLAT") = false := by
    rw [List.any_eq_false]
    intro x hx
    simp only [beq_iff_eq]
    exact hflat x (hperm.mem_iff.1 hx)
  have hW : ((sortOrders orders).map (fun o => o.leverage)).sum
      = (orders.map (fun o => o.leverage)).sum := (hperm.map _).sum_eq
  have hS : ((sortOrders orders).map (fun o => o.leverage * o.price)).sum
      = (orders.map (fun o => o.leverage * o.price)).sum := (hperm.map _).sum_eq
  have hfold : (sortOrders orders).foldl processOrder (0, 0)
      = ((orders.map (fun o => o.leverage)).sum,
        if (orders.map (fun o => o.leverage)).sum = 0 then 0
        else (orders.map (fun o => o.leverage * o.price)).sum
          / (orders.map (fun o => o.leverage)).sum) := by
    rcases hsign with hpos | hneg
    · rw [fold_same_sign 1 (Or.inl rfl) (sortOrders orders) 0 0
        (fun o ho => by simpa using hpos o (hperm.mem_iff.1 ho)) (by norm_num) (fun _ => rfl)]
      rw [hW, hS]
      simp only [zero_add, zero_mul]
    · rw [fold_same_sign (-1) (Or.inr rfl) (sortOrders orders) 0 0
        (fun o ho => by simpa using hneg o (hperm.mem_iff.1 ho)) (by norm_num) (fun _ => rfl)]
      rw [hW, hS]
      simp only [zero_add, zero_mul]
  simp only [compute_net_position_and_average_price, hany, Bool.false_eq_true, if_false, hfold]
  by_cases hW0 : (orders.map (fun o => o.leverage)).sum = 0
  · rw [if_pos hW0, hW0, div_zero]
  · rw [if_neg hW0]

theorem claim_C8_witness :
    (∀ o ∈ [(⟨"LONG", 1, 100, 0⟩ : MinerOrder), ⟨"LONG", 1, 200, 1⟩],
        upper_strip o.order_type ≠ "FLAT")
    ∧ compute_net_position_and_average_price
        [⟨"LONG", 1, 100, 0⟩, ⟨"LONG", 1, 200, 1⟩] = (2, 150) :=
  ⟨by decide,
    (claim_C8 [⟨"LONG", 1, 100, 0⟩, ⟨"LONG", 1, 200, 1⟩] (by decide)
      (Or.inl (by norm_num))).trans (by norm_num)⟩

/-! ## Depth cap: claim C1 -/

/-- C1 (code bug): for the single-miner snapshot with one open `BTCUSD`
position of net leverage 2 (one `LONG` order of leverage 2.0 at price 100),
the pipeline `_process_signals(data, top_miners=5)` emits an asset signal
with `depth = 2`, whose absolute value exceeds `LEVERAGE_LIMIT_CRYPTO = 0.5`:
the capped leverage `min(net_pos, LEVERAGE_LIMIT_CRYPTO)` computed at
line 143 is used only in a `print`, never in the emitted results, so the
emitted depth is the uncapped weighted net position. -/
theorem claim_C1 :
    process_signals [("miner1", ⟨1, [⟨["BTCUSD"], 2, false, [⟨"LONG", 2, 100, 0⟩], 0, 0⟩]⟩)]
        (some 5)
      = some [⟨"BTCUSDT", ["BTCUSD"], 2, some 100, 100, 0⟩]
    ∧ ¬(|(2 : ℚ)| ≤ LEVERAGE_LIMIT_CRYPTO) := by
  constructor
  · have hw : calculate_gradient_allocation 1 1 = 1 := by
      norm_num [calculate_gradient_allocation, calculate_gradient_allocation_total,
        List.range']
    have hlong : (upper_strip "LONG" == "FLAT") = false := by decide
    have hlong2 : ¬(upper_strip "LONG" = "FLAT") := by decide
    norm_num [process_signals, process_position, add_depth_entries, lookup_depths,
      compute_net_position_and_average_price, sortOrders, processOrder,
      List.insertionSort, List.orderedInsert, List.enum, List.enumFrom, List.foldlM,
      List.mapM, List.mapM.loop, List.max?, List.find?, List.dedup, List.pwFilter,
      CORE_ASSET_MAPPING, hw, hlong, hlong2, DepthEntry.toOrder]
  · norm_num [LEVERAGE_LIMIT_CRYPTO]

/-! ## Trade consistency score: claim C4 -/

lemma consistency_two_positions :
    get_trade_consistency_score
      [⟨[], 0, true, [], 0, 10⟩, ⟨[], 0, true, [], 15, 20⟩] = 1 := by
  have hs : sortPositions [⟨[], 0, true, [], 0, 10⟩, ⟨[], 0, true, [], 15, 20⟩]
      = [⟨[], 0, true, [], 0, 10⟩, ⟨[], 0, true, [], 15, 20⟩] := by decide
  have hint : trade_intervals
      [(⟨[], 0, true, [], 0, 10⟩ : MinerPosition), ⟨[], 0, true, [], 15, 20⟩] = [5] := by
    decide
  have hm : interval_mean [5] = 5 := by norm_num [interval_mean]
  have hv : interval_variance [5] = 0 := by norm_num [interval_variance, interval_mean]
  simp only [get_trade_consistency_score, hs, hint, hm, hv]
  norm_num

lemma consistency_zero_mean :
    get_trade_consistency_score
      [⟨[], 0, true, [], 0, 10⟩, ⟨[], 0, true, [], 10, 20⟩, ⟨[], 0, true, [], 20, 30⟩]
      = 1 := by
  have hs : sortPositions
        [⟨[], 0, true, [], 0, 10⟩, ⟨[], 0, true, [], 10, 20⟩, ⟨[], 0, true, [], 20, 30⟩]
      = [⟨[], 0, true, [], 0, 10⟩, ⟨[], 0, true, [], 10, 20⟩, ⟨[], 0, true, [], 20, 30⟩] := by
    decide
  have hint : trade_intervals
      [(⟨[], 0, true, [], 0, 10⟩ : MinerPosition), ⟨[], 0, true, [], 10, 20⟩,
        ⟨[], 0, true, [], 20, 30⟩] = [0, 0] := by decide
  have hm : interval_mean [0, 0] = 0 := by norm_num [interval_mean]
  simp only [get_trade_consistency_score, hs, hint, hm]
  norm_num

/-- C4 counterexample: the claim says the score is 0 whenever there are
fewer than two gaps or the mean gap is zero, but the code returns 1 in
both situations: two positions (a single gap of 5) score 1, and three
back-to-back positions (gaps `[0,0]`, mean 0) also score 1, because the
`len < 2` guard counts positions (not gaps) and the zero-mean guard nulls
only the ratio inside `1 - (...)`. -/
theorem claim_C4_counterexample :
    get_trade_consistency_score
        [⟨[], 0, true, [], 0, 10⟩, ⟨[], 0, true, [], 15, 20⟩] = 1
    ∧ get_trade_consistency_score
        [⟨[], 0, true, [], 0, 10⟩, ⟨[], 0, true, [], 10, 20⟩, ⟨[], 0, true, [], 20, 30⟩] = 1
    ∧ (1 : ℝ) ≠ 0 :=
  ⟨consistency_two_positions, consistency_zero_mean, by norm_num⟩

/-- C4 (amended): `get_trade_consistency_score` sorts the positions by open
time, returns 0 for fewer than two positions (i.e. fewer than one gap),
and otherwise returns `1 − stdev(gaps)/mean(gaps)` when the mean gap is
nonzero and 1 when the mean gap is zero — exactly the spec-side model
`spec_consistency_score`. -/
theorem claim_C4 (ps : List MinerPosition) :
    get_trade_consistency_score ps = spec_consistency_score ps := by
  simp only [get_trade_consistency_score, spec_consistency_score]
  by_cases hlen : (sortPositions ps).length < 2
  · simp [hlen]
  · simp only [hlen, if_false]
    have hmean : ((interval_mean (trade_intervals (sortPositions ps)) : ℚ) : ℝ)
        = ((trade_intervals (sortPositions ps)).map (fun x : ℤ => (x : ℝ))).sum
          / ((trade_intervals (sortPositions ps)).length : ℝ) := by
      rw [interval_mean, Rat.cast_div, ratCast_list_sum_int]
      norm_cast
    have hvar : ((interval_variance (trade_intervals (sortPositions ps)) : ℚ) : ℝ)
        = ((trade_intervals (sortPositions ps)).map (fun x : ℤ =>
            ((x : ℝ) - ((trade_intervals (sortPositions ps)).map (fun x : ℤ => (x : ℝ))).sum
              / ((trade_intervals (sortPositions ps)).length : ℝ)) ^ (2 : ℕ))).sum
          / ((trade_intervals (sortPositions ps)).length : ℝ) := by
      rw [interval_variance]
      rw [Rat.cast_div, ratCast_list_sum_sq, hmean]
      push_cast
      ring
    by_cases hm : interval_mean (trade_intervals (sortPositions ps)) = 0
    · have hm2 : ((trade_intervals (sortPositions ps)).map (fun x : ℤ => (x : ℝ))).sum
          / ((trade_intervals (sortPositions ps)).length : ℝ) = 0 := by
        rw [← hmean, hm, Rat.cast_zero]
      simp [hm, hm2]
    · have hm2 : ((trade_intervals (sortPositions ps)).map (fun x : ℤ => (x : ℝ))).sum
          / ((trade_intervals (sortPositions ps)).length : ℝ) ≠ 0 := by
        rw [← hmean]
        exact_mod_cast hm
      simp only [hm, hm2, ne_eq, not_false_iff, if_true, if_false, if_neg hm2]
      rw [hvar, hmean]

/-! ## Percentile normalization: claim C6 -/

lemma ranks_fun_cons (n : ℕ) (p : ℕ × (ℕ × ℚ)) (L : List (ℕ × (ℕ × ℚ))) (f : ℕ → ℚ) :
    ranks_fun n (p :: L) f
      = ranks_fun n L (fun j => if j = p.2.1 then percentile_score n p.1 else f j) := rfl

lemma ranks_fun_append (n : ℕ) (L1 L2 : List (ℕ × (ℕ × ℚ))) (f : ℕ → ℚ) :
    ranks_fun n (L1 ++ L2) f = ranks_fun n L2 (ranks_fun n L1 f) := by
  simp [ranks_fun, List.foldl_append]

lemma ranks_fun_not_mem (n : ℕ) (L : List (ℕ × (ℕ × ℚ))) (f : ℕ → ℚ) (j : ℕ)
    (h : ∀ rp ∈ L, rp.2.1 ≠ j) : ranks_fun n L f j = f j := by
  induction L generalizing f with
  | nil => rfl
  | cons p L ih =>
    rw [ranks_fun_cons, ih _ (fun rp hrp => h rp (List.mem_cons_of_mem _ hrp))]
    exact if_neg (fun hj => (h p (List.mem_cons_self p L)) hj.symm)

lemma ranks_fun_lookup (n : ℕ) (L : List (ℕ × (ℕ × ℚ))) (f : ℕ → ℚ) (rp : ℕ × (ℕ × ℚ))
    (hmem : rp ∈ L) (hnd : (L.map (fun q => q.2.1)).Nodup) :
    ranks_fun n L f rp.2.1 = percentile_score n rp.1 := by
  obtain ⟨L1, L2, rfl⟩ := List.append_of_mem hmem
  rw [ranks_fun_append, ranks_fun_cons]
  have h2 : ∀ q ∈ L2, q.2.1 ≠ rp.2.1 := by
    intro q hq heq
    rw [List.map_append, List.map_cons] at hnd
    have hnotin : rp.2.1 ∉ L2.map (fun q => q.2.1) :=
      (List.nodup_cons.mp (List.Nodup.of_append_right hnd)).1
    exact hnotin (heq ▸ List.mem_map_of_mem _ hq)
  rw [ranks_fun_not_mem _ _ _ _ h2]
  simp

lemma ranks_fun_cases (n : ℕ) (L : List (ℕ × (ℕ × ℚ))) (f : ℕ → ℚ) (j : ℕ) :
    ranks_fun n L f j = f j ∨ ∃ rp ∈ L, ranks_fun n L f j = percentile_score n rp.1 := by
  induction L generalizing f with
  | nil => exact Or.inl rfl
  | cons p L ih =>
    rw [ranks_fun_cons]
    rcases ih (fun j' => if j' = p.2.1 then percentile_score n p.1 else f j') with h | ⟨rp, hrp, h⟩
    · by_cases hj : j = p.2.1
      · exact Or.inr ⟨p, List.mem_cons_self p L, by rw [h, if_pos hj]⟩
      · exact Or.inl (by rw [h, if_neg hj])
    · exact Or.inr ⟨rp, List.mem_cons_of_mem _ hrp, h⟩

lemma percentile_score_bounds (n r : ℕ) (h : r < n) :
    0 ≤ percentile_score n r ∧ percentile_score n r ≤ 1 := by
  unfold percentile_score
  by_cases h1 : 1 < n
  · rw [if_pos h1]
    have hn1 : (0 : ℚ) < (n : ℚ) - 1 := by
      have : (1 : ℚ) < (n : ℚ) := by exact_mod_cast h1
      linarith
    have hrn : (r : ℚ) + 1 ≤ (n : ℚ) := by exact_mod_cast Nat.succ_le_of_lt h
    constructor
    · have hle : (r : ℚ) / ((n : ℚ) - 1) ≤ 1 := (div_le_one hn1).2 (by linarith)
      linarith
    · have h0 : 0 ≤ (r : ℚ) / ((n : ℚ) - 1) := div_nonneg (by positivity) (le_of_lt hn1)
      linarith
  · rw [if_neg h1]; norm_num

lemma percentile_score_rank_zero (n : ℕ) : percentile_score n 0 = 1 := by
  unfold percentile_score
  split_ifs <;> simp

lemma percentile_score_rank_last (n : ℕ) (h : 2 ≤ n) : percentile_score n (n - 1) = 0 := by
  unfold percentile_score
  rw [if_pos (by omega)]
  rw [Nat.cast_sub (by omega : 1 ≤ n), Nat.cast_one,
    div_self (by
      have : (2 : ℚ) ≤ (n : ℚ) := by exact_mod_cast h
      intro hz
      linarith [hz])]
  norm_num

lemma desc_sort_perm (values : List ℚ) : List.Perm (desc_sort values) values.enum :=
  List.perm_insertionSort _ _

lemma desc_sort_length (values : List ℚ) : (desc_sort values).length = values.length := by
  rw [(desc_sort_perm values).length_eq, List.enum_length]

lemma desc_sort_idx_nodup (values : List ℚ) :
    ((desc_sort values).enum.map (fun q => q.2.1)).Nodup := by
  have h1 : (desc_sort values).enum.map (fun q : ℕ × (ℕ × ℚ) => q.2.1)
      = (desc_sort values).map Prod.fst := by
    rw [show (fun q : ℕ × (ℕ × ℚ) => q.2.1) = (Prod.fst ∘ Prod.snd) from rfl, ← List.map_map,
      List.enum_map_snd]
  rw [h1, ((desc_sort_perm values).map Prod.fst).nodup_iff, List.enum_map_fst]
  exact List.nodup_range _

lemma desc_sort_sorted (values : List ℚ) :
    List.Pairwise (fun p q : ℕ × ℚ => q.2 ≤ p.2) (desc_sort values) := by
  haveI : IsTotal (ℕ × ℚ) (fun p q : ℕ × ℚ => q.2 ≤ p.2) := ⟨fun a b => le_total b.2 a.2⟩
  haveI : IsTrans (ℕ × ℚ) (fun p q : ℕ × ℚ => q.2 ≤ p.2) :=
    ⟨fun _ _ _ hab hbc => le_trans hbc hab⟩
  exact List.sorted_insertionSort _ values.enum

lemma normalize_out_eq (values : List ℚ) :
    normalize_to_percentile values false
      = (List.range values.length).map
          (ranks_fun values.length (desc_sort values).enum (fun _ => 0)) := by
  simp only [normalize_to_percentile, Bool.false_eq_true, if_false, desc_sort_length]

lemma normalize_getD (values : List ℚ) (i : ℕ) (h : i < values.length) :
    (normalize_to_percentile values false).getD i 0
      = ranks_fun values.length (desc_sort values).enum (fun _ => 0) i := by
  rw [normalize_out_eq, List.getD_eq_getElem?_getD, List.getElem?_map, List.getElem?_range h]
  rfl

lemma percentile_all_bounds (values : List ℚ) :
    ∀ x ∈ normalize_to_percentile values false, 0 ≤ x ∧ x ≤ 1 := by
  intro x hx
  rw [normalize_out_eq] at hx
  obtain ⟨i, _, rfl⟩ := List.mem_map.1 hx
  rcases ranks_fun_cases values.length (desc_sort values).enum (fun _ => 0) i with
    h | ⟨rp, hrp, h⟩
  · rw [h]; norm_num
  · rw [h]
    have hlt : rp.1 < values.length := by
      have := List.fst_lt_of_mem_enum hrp
      rwa [desc_sort_length] at this
    exact percentile_score_bounds _ _ hlt

lemma percentile_top (values : List ℚ) (hne : values ≠ []) :
    ∃ i, i < values.length ∧ (∀ v ∈ values, v ≤ values.getD i 0)
      ∧ (normalize_to_percentile values false).getD i 0 = 1 := by
  have hpos : 0 < (desc_sort values).length := by
    rw [desc_sort_length]
    exact List.length_pos.2 hne
  have hx0 : (desc_sort values)[0] ∈ desc_sort values := List.getElem_mem _
  have hxe : (desc_sort values)[0] ∈ values.enum := (desc_sort_perm values).subset hx0
  have hx1 : ((desc_sort values)[0]).1 < values.length := List.fst_lt_of_mem_enum hxe
  have hx2 : values.getD ((desc_sort values)[0]).1 0 = ((desc_sort values)[0]).2 := by
    rw [List.getD_eq_getElem?_getD, List.getElem?_eq_getElem hx1]
    exact (List.snd_eq_of_mem_enum hxe).symm
  refine ⟨((desc_sort values)[0]).1, hx1, ?_, ?_⟩
  · intro v hv
    rw [hx2]
    have hv2 : v ∈ values.enum.map Prod.snd := by rw [List.enum_map_snd]; exact hv
    obtain ⟨y, hy, rfl⟩ := List.mem_map.1 hv2
    have hysw : y ∈ desc_sort values := ((desc_sort_perm values).mem_iff).2 hy
    obtain ⟨k, hk, hky⟩ := List.mem_iff_getElem.1 hysw
    rcases Nat.eq_zero_or_pos k with hk0 | hk0
    · subst hk0
      rw [← hky]
    · have := (List.pairwise_iff_getElem.1 (desc_sort_sorted values)) 0 k hpos hk hk0
      rw [← hky]
      exact this
  · rw [normalize_getD values _ hx1]
    have hmem : ((0 : ℕ), (desc_sort values)[0]) ∈ (desc_sort values).enum := by
      rw [List.mk_mem_enum_iff_getElem?, List.getElem?_eq_getElem hpos]
    have := ranks_fun_lookup values.length (desc_sort values).enum (fun _ => 0)
      (0, (desc_sort values)[0]) hmem (desc_sort_idx_nodup values)
    rw [this, percentile_score_rank_zero]

lemma percentile_bottom (values : List ℚ) (h2 : 2 ≤ values.length) :
    ∃ i, i < values.length ∧ (∀ v ∈ values, values.getD i 0 ≤ v)
      ∧ (normalize_to_percentile values false).getD i 0 = 0 := by
  have hlen := desc_sort_length values
  have hm : (desc_sort values).length - 1 < (desc_sort values).length := by omega
  have hx0 : (desc_sort values)[(desc_sort values).length - 1] ∈ desc_sort values :=
    List.getElem_mem _
  have hxe : (desc_sort values)[(desc_sort values).length - 1] ∈ values.enum :=
    (desc_sort_perm values).subset hx0
  have hx1 : ((desc_sort values)[(desc_sort values).length - 1]).1 < values.length :=
    List.fst_lt_of_mem_enum hxe
  have hx2 : values.getD ((desc_sort values)[(desc_sort values).length - 1]).1 0
      = ((desc_sort values)[(desc_sort values).length - 1]).2 := by
    rw [List.getD_eq_getElem?_getD, List.getElem?_eq_getElem hx1]
    exact (List.snd_eq_of_mem_enum hxe).symm
  refine ⟨((desc_sort values)[(desc_sort values).length - 1]).1, hx1, ?_, ?_⟩
  · intro v hv
    rw [hx2]
    have hv2 : v ∈ values.enum.map Prod.snd := by rw [List.enum_map_snd]; exact hv
    obtain ⟨y, hy, rfl⟩ := List.mem_map.1 hv2
    have hysw : y ∈ desc_sort values := ((desc_sort_perm values).mem_iff).2 hy
    obtain ⟨k, hk, hky⟩ := List.mem_iff_getElem.1 hysw
    rcases Nat.lt_or_ge k ((desc_sort values).length - 1) with hk1 | hk1
    · have := (List.pairwise_iff_getElem.1 (desc_sort_sorted values)) k
        ((desc_sort values).length - 1) hk hm hk1
      rw [← hky]
      exact this
    · have hkeq : k = (desc_sort values).length - 1 := by omega
      subst hkeq
      rw [← hky]
  · rw [normalize_getD values _ hx1]
    have hmem : ((desc_sort values).length - 1,
        (desc_sort values)[(desc_sort values).length - 1]) ∈ (desc_sort values).enum := by
      rw [List.mk_mem_enum_iff_getElem?, List.getElem?_eq_getElem hm]
    have hp := ranks_fun_lookup values.length (desc_sort values).enum (fun _ => 0)
      ((desc_sort values).length - 1, (desc_sort values)[(desc_sort values).length - 1])
      hmem (desc_sort_idx_nodup values)
    rw [hp]
    show percentile_score values.length ((desc_sort values).length - 1) = 0
    rw [hlen]
    exact percentile_score_rank_last values.length h2

lemma normalize_example_three :
    normalize_to_percentile [10, 20, 30] false = [0, 1/2, 1] := by
  have hsort : desc_sort [10, 20, 30] = [(2, 30), (1, 20), (0, 10)] := by
    norm_num [desc_sort, List.insertionSort, List.orderedInsert, List.enum, List.enumFrom]
  rw [normalize_out_eq, hsort]
  norm_num [ranks_fun, percentile_score, List.range_succ, List.range_zero,
    List.enum, List.enumFrom, List.foldl_cons, List.foldl_nil]

lemma normalize_singleton (v : ℚ) : normalize_to_percentile [v] false = [1] := by
  have hsort : desc_sort [v] = [(0, v)] := by
    simp [desc_sort, List.insertionSort, List.orderedInsert, List.enum, List.enumFrom]
  rw [normalize_out_eq, hsort]
  norm_num [ranks_fun, percentile_score, List.range_succ, List.range_zero,
    List.enum, List.enumFrom, List.foldl_cons, List.foldl_nil]

/-- C6: for a non-empty input, every percentile score lies in `[0,1]`, some
index holding a maximal value scores exactly 1, and (when at least two
values are present) some index holding a minimal value scores exactly 0;
`[10, 20, 30]` scores `[0.0, 0.5, 1.0]` and any singleton scores `[1.0]`
with no division by zero. -/
theorem claim_C6 (values : List ℚ) (hne : values ≠ []) :
    (∀ x ∈ normalize_to_percentile values false, 0 ≤ x ∧ x ≤ 1)
    ∧ (∃ i, i < values.length ∧ (∀ v ∈ values, v ≤ values.getD i 0)
        ∧ (normalize_to_percentile values false).getD i 0 = 1)
    ∧ (2 ≤ values.length →
        ∃ i, i < values.length ∧ (∀ v ∈ values, values.getD i 0 ≤ v)
          ∧ (normalize_to_percentile values false).getD i 0 = 0)
    ∧ normalize_to_percentile [10, 20, 30] false = [0, 1/2, 1]
    ∧ (∀ v : ℚ, normalize_to_percentile [v] false = [1]) :=
  ⟨percentile_all_bounds values, percentile_top values hne,
    fun h2 => percentile_bottom values h2, normalize_example_three, normalize_singleton⟩

theorem claim_C6_witness :
    ([10, 20, 30] : List ℚ) ≠ []
    ∧ normalize_to_percentile [10, 20, 30] false = [0, 1/2, 1] :=
  ⟨by simp, (claim_C6 [10, 20, 30] (by simp)).2.2.2.1⟩

end TradeEngine
